import Mathlib

/-!
Shallow embedding of `next-matching-day` (src/src/lib.rs) and verification of
its specification.

The Rust crate is built on `chrono`'s `NaiveDate`: a validated proleptic
Gregorian calendar date.  We embed a date as a `(year, month, day)` triple
together with the validity predicate enforced by `NaiveDate`'s constructors,
and give executable translations of exactly the `chrono` operations the crate
uses:

* `Weekday` / `Weekday.days_since`  (chrono `Weekday::days_since`);
* `from_ymd_opt`                    (chrono `NaiveDate::from_ymd_opt`);
* `checked_add_days`                (chrono `NaiveDate::checked_add_days`,
  modelled for the nonnegative day counts the crate uses as iterated calendar
  successor, with `none` exactly when the result would pass `NaiveDate::MAX`);
* `with_day`                        (chrono `Datelike::with_day`);
* `checked_add_months`              (chrono `NaiveDate::checked_add_months`:
  month arithmetic with day clamped to the target month's length, `none`
  when the resulting year leaves the supported range);
* `NaiveDate.weekday`               (chrono `Datelike::weekday`), via the
  proleptic Gregorian day count `numDaysFromCE`
  (chrono `Datelike::num_days_from_ce`).

`chrono` restricts `NaiveDate` to years `-262143 ..= 262142`
(`NaiveDate::MIN` is January 1, -262143 and `NaiveDate::MAX` is
December 31, 262142); out-of-range results make the checked operations
return `None`.

On top of these the three crate functions `find_next_weekday`,
`find_next_day_of_month` and `find_next_annual_date` are translated
line by line from src/src/lib.rs.
-/

/-- Gregorian leap-year predicate (chrono `NaiveDate::leap_year`). -/
def isLeapYear (y : Int) : Bool :=
  y % 4 == 0 && (y % 100 != 0 || y % 400 == 0)

/-- Number of days in a month of a given year (chrono's month lengths). -/
def daysInMonth (y : Int) (m : Nat) : Nat :=
  if m = 2 then (if isLeapYear y then 29 else 28)
  else if m = 4 ∨ m = 6 ∨ m = 9 ∨ m = 11 then 30
  else 31

/-- First year supported by chrono `NaiveDate` (`NaiveDate::MIN` is Jan 1 of it). -/
def MIN_YEAR : Int := -262143

/-- Last year supported by chrono `NaiveDate` (`NaiveDate::MAX` is Dec 31 of it). -/
def MAX_YEAR : Int := 262142

/-- The validity predicate enforced by chrono `NaiveDate` construction:
the year is in the supported range and `(month, day)` is a real calendar
day of that year. -/
def validYMD (y : Int) (m d : Nat) : Bool :=
  decide (MIN_YEAR ≤ y) && decide (y ≤ MAX_YEAR) &&
  decide (1 ≤ m) && decide (m ≤ 12) &&
  decide (1 ≤ d) && decide (d ≤ daysInMonth y m)

/-- A chrono `NaiveDate`, embedded as its civil fields.  Functions of the
crate only ever construct and consume valid dates (`NaiveDate.valid`). -/
structure NaiveDate where
  year : Int
  month : Nat
  day : Nat
deriving DecidableEq, Repr

/-- The `NaiveDate` invariant: every constructed chrono date is valid. -/
def NaiveDate.valid (dt : NaiveDate) : Bool :=
  validYMD dt.year dt.month dt.day

/-- chrono `NaiveDate::from_ymd_opt`: build a date, `none` when invalid. -/
def from_ymd_opt (y : Int) (m d : Nat) : Option NaiveDate :=
  if validYMD y m d then some ⟨y, m, d⟩ else none

/-- chrono's `Ord` on `NaiveDate`: chronological order, which on civil
fields is lexicographic. -/
def NaiveDate.lt (a b : NaiveDate) : Prop :=
  a.year < b.year ∨
    (a.year = b.year ∧
      (a.month < b.month ∨ (a.month = b.month ∧ a.day < b.day)))

instance : LT NaiveDate := ⟨NaiveDate.lt⟩

instance (a b : NaiveDate) : Decidable (a < b) := by
  show Decidable (NaiveDate.lt a b)
  unfold NaiveDate.lt
  infer_instance

/-- Non-strict chronological order on dates. -/
def NaiveDate.le (a b : NaiveDate) : Prop := a = b ∨ a < b

instance : LE NaiveDate := ⟨NaiveDate.le⟩

instance (a b : NaiveDate) : Decidable (a ≤ b) := by
  show Decidable (NaiveDate.le a b)
  unfold NaiveDate.le
  infer_instance

/-- Days of the year strictly before month `m` in a non-leap year. -/
def cumDays : Nat → Nat
  | 1 => 0
  | 2 => 31
  | 3 => 59
  | 4 => 90
  | 5 => 120
  | 6 => 151
  | 7 => 181
  | 8 => 212
  | 9 => 243
  | 10 => 273
  | 11 => 304
  | 12 => 334
  | _ => 0

/-- Ordinal day of the year of a civil date (chrono `Datelike::ordinal`). -/
def ordinalOf (y : Int) (m d : Nat) : Nat :=
  cumDays m + (if 3 ≤ m ∧ isLeapYear y then 1 else 0) + d

/-- Day count of a date, counted from December 31 of year 0 as day 0
(chrono `Datelike::num_days_from_ce`). -/
def numDaysFromCE (dt : NaiveDate) : Int :=
  365 * (dt.year - 1) + (dt.year - 1) / 4 - (dt.year - 1) / 100
    + (dt.year - 1) / 400 + (ordinalOf dt.year dt.month dt.day : Int)

/-- The seven weekdays (chrono `Weekday`). -/
inductive Weekday
  | mon | tue | wed | thu | fri | sat | sun
deriving DecidableEq, Repr, Fintype

/-- chrono `Weekday::num_days_from_monday`. -/
def Weekday.num_days_from_monday : Weekday → Nat
  | .mon => 0
  | .tue => 1
  | .wed => 2
  | .thu => 3
  | .fri => 4
  | .sat => 5
  | .sun => 6

/-- The weekday with the given Monday-based index (indices ≥ 6 give Sunday). -/
def Weekday.ofIdx : Nat → Weekday
  | 0 => .mon
  | 1 => .tue
  | 2 => .wed
  | 3 => .thu
  | 4 => .fri
  | 5 => .sat
  | _ => .sun

/-- chrono `Weekday::days_since`: days counted forward from `other` to `self`,
in `0 ..= 6`. -/
def Weekday.days_since (self other : Weekday) : Nat :=
  let lhs := self.num_days_from_monday
  let rhs := other.num_days_from_monday
  if lhs < rhs then 7 + lhs - rhs else lhs - rhs

/-- chrono `Datelike::weekday`: Monday-indexed day of week of a date.
Proleptic Gregorian January 1 of year 1 (`numDaysFromCE = 1`) is a Monday. -/
def NaiveDate.weekday (dt : NaiveDate) : Weekday :=
  Weekday.ofIdx ((numDaysFromCE dt - 1) % 7).toNat

/-- The last representable chrono date, `NaiveDate::MAX`. -/
def maxDate : NaiveDate := ⟨MAX_YEAR, 12, 31⟩

/-- Calendar successor of a date; `none` past `NaiveDate::MAX`. -/
def nextDate (dt : NaiveDate) : Option NaiveDate :=
  if dt.day < daysInMonth dt.year dt.month then some ⟨dt.year, dt.month, dt.day + 1⟩
  else if dt.month < 12 then some ⟨dt.year, dt.month + 1, 1⟩
  else if dt.year < MAX_YEAR then some ⟨dt.year + 1, 1, 1⟩
  else none

/-- chrono `NaiveDate::checked_add_days` for a nonnegative day count:
move `k` days forward on the timeline, `none` if that passes
`NaiveDate::MAX`. -/
def checked_add_days (dt : NaiveDate) : Nat → Option NaiveDate
  | 0 => some dt
  | k + 1 => (nextDate dt).bind (fun d2 => checked_add_days d2 k)

/-- chrono `Datelike::with_day`: replace the day of the month, `none` if the
result is not a real date. -/
def with_day (dt : NaiveDate) (d : Nat) : Option NaiveDate :=
  from_ymd_opt dt.year dt.month d

/-- chrono `NaiveDate::checked_add_months` for a nonnegative month count:
move `i` months forward, clamping the day to the length of the target
month; `none` when the resulting year is out of range. -/
def checked_add_months (dt : NaiveDate) (i : Nat) : Option NaiveDate :=
  let t := dt.month - 1 + i
  let y2 := dt.year + (t / 12 : Nat)
  let m2 := t % 12 + 1
  let d2 := min dt.day (daysInMonth y2 m2)
  if MIN_YEAR ≤ y2 ∧ y2 ≤ MAX_YEAR then some ⟨y2, m2, d2⟩ else none

/-- A bounded first-match loop: try `step i`, `step (i+1)`, … for `fuel`
iterations, returning the first `some`.  This is the shape of the two
`for i in 1..=N { if let Some(..) = .. { return .. } }` loops of the crate. -/
def scanFirst (step : Nat → Option NaiveDate) : Nat → Nat → Option NaiveDate
  | _, 0 => none
  | i, fuel + 1 =>
    match step i with
    | some r => some r
    | none => scanFirst step (i + 1) fuel

/-- The day offset computed by `find_next_weekday`
(Rust: `(days_since + 6) % 7 + 1`). -/
def days_distance (current_date : NaiveDate) (next_weekday : Weekday) : Nat :=
  (next_weekday.days_since current_date.weekday + 6) % 7 + 1

/-- Translation of `find_next_weekday` from src/src/lib.rs. -/
def find_next_weekday (current_date : NaiveDate) (next_weekday : Weekday) :
    Option NaiveDate :=
  checked_add_days current_date (days_distance current_date next_weekday)

/-- The body of the month-scan loop of `find_next_day_of_month`:
`current_date.checked_add_months(Months::new(i)).and_then(|d| d.with_day(next_day))`. -/
def monthStep (current_date : NaiveDate) (next_day : Nat) (i : Nat) :
    Option NaiveDate :=
  (checked_add_months current_date i).bind (fun d => with_day d next_day)

/-- Translation of `find_next_day_of_month` from src/src/lib.rs. -/
def find_next_day_of_month (current_date : NaiveDate) (next_day : Nat) :
    Option NaiveDate :=
  if current_date.day < next_day then
    match with_day current_date next_day with
    | some date => some date
    | none => scanFirst (monthStep current_date next_day) 1 12
  else
    scanFirst (monthStep current_date next_day) 1 12

/-- The body of the year-scan loop of `find_next_annual_date`:
`NaiveDate::from_ymd_opt(cur_year + i, next_month, next_day)`. -/
def yearStep (cur_year : Int) (next_month next_day : Nat) (i : Nat) :
    Option NaiveDate :=
  from_ymd_opt (cur_year + i) next_month next_day

/-- Translation of `find_next_annual_date` from src/src/lib.rs. -/
def find_next_annual_date (current_date : NaiveDate)
    (next_month next_day : Nat) : Option NaiveDate :=
  let cur_year := current_date.year
  match from_ymd_opt cur_year next_month next_day with
  | some next_date =>
    if current_date < next_date then some next_date
    else scanFirst (yearStep cur_year next_month next_day) 1 8
  | none => scanFirst (yearStep cur_year next_month next_day) 1 8

/-- Linear index of a calendar month, used to express "`i` months later". -/
def monthIndex (dt : NaiveDate) : Int := 12 * dt.year + (dt.month : Int) - 1

/-! ### Basic facts about the calendar primitives -/

theorem isLeapYear_iff (y : Int) :
    isLeapYear y = true ↔ (y % 4 = 0 ∧ (¬ y % 100 = 0 ∨ y % 400 = 0)) := by
  simp [isLeapYear]

theorem daysInMonth_ge (y : Int) (m : Nat) : 28 ≤ daysInMonth y m := by
  unfold daysInMonth
  split
  · split <;> omega
  · split <;> omega

theorem daysInMonth_le (y : Int) (m : Nat) : daysInMonth y m ≤ 31 := by
  unfold daysInMonth
  split
  · split <;> omega
  · split <;> omega

theorem daysInMonth_ge_30 (y : Int) {m : Nat} (h : m ≠ 2) : 30 ≤ daysInMonth y m := by
  unfold daysInMonth
  rw [if_neg h]
  split <;> omega

theorem daysInMonth_eq_31 (y : Int) {m : Nat}
    (h : m = 1 ∨ m = 3 ∨ m = 5 ∨ m = 7 ∨ m = 8 ∨ m = 10 ∨ m = 12) :
    daysInMonth y m = 31 := by
  rcases h with h | h | h | h | h | h | h <;> subst h <;> rfl

theorem daysInMonth_feb (y : Int) :
    daysInMonth y 2 = if isLeapYear y then 29 else 28 := rfl

theorem isLeapYear_of_feb29 {y : Int} (h : 29 ≤ daysInMonth y 2) :
    isLeapYear y = true := by
  rw [daysInMonth_feb] at h
  by_cases hL : isLeapYear y = true
  · exact hL
  · rw [if_neg hL] at h; omega

theorem daysInMonth_year_indep {y y' : Int} {m : Nat} (h : m ≠ 2) :
    daysInMonth y m = daysInMonth y' m := by
  unfold daysInMonth
  rw [if_neg h, if_neg h]

theorem validYMD_iff {y : Int} {m d : Nat} :
    validYMD y m d = true ↔
      (MIN_YEAR ≤ y ∧ y ≤ MAX_YEAR ∧ 1 ≤ m ∧ m ≤ 12 ∧ 1 ≤ d ∧
        d ≤ daysInMonth y m) := by
  simp [validYMD, and_assoc]

theorem NaiveDate.valid_iff {dt : NaiveDate} :
    dt.valid = true ↔
      (MIN_YEAR ≤ dt.year ∧ dt.year ≤ MAX_YEAR ∧ 1 ≤ dt.month ∧ dt.month ≤ 12 ∧
        1 ≤ dt.day ∧ dt.day ≤ daysInMonth dt.year dt.month) := validYMD_iff

theorem from_ymd_opt_eq_some {y : Int} {m d : Nat} {R : NaiveDate} :
    from_ymd_opt y m d = some R ↔ (validYMD y m d = true ∧ R = ⟨y, m, d⟩) := by
  unfold from_ymd_opt
  split
  · constructor
    · intro h; injection h with h; exact ⟨by assumption, h.symm⟩
    · intro ⟨_, h⟩; rw [h]
  · constructor
    · intro h; cases h
    · intro ⟨h, _⟩
      exact absurd h (by assumption)

theorem from_ymd_opt_eq_none {y : Int} {m d : Nat} :
    from_ymd_opt y m d = none ↔ validYMD y m d = false := by
  unfold from_ymd_opt
  split
  · simp only [reduceCtorEq, false_iff]
    intro hf
    simp_all
  · simp_all

/-! ### The chronological order on dates -/

theorem NaiveDate.lt_iff {a b : NaiveDate} :
    a < b ↔
      (a.year < b.year ∨
        (a.year = b.year ∧
          (a.month < b.month ∨ (a.month = b.month ∧ a.day < b.day)))) :=
  Iff.rfl

theorem NaiveDate.le_iff {a b : NaiveDate} : a ≤ b ↔ (a = b ∨ a < b) := Iff.rfl

theorem NaiveDate.lt_irrefl (a : NaiveDate) : ¬ a < a := by
  rw [NaiveDate.lt_iff]; omega

theorem NaiveDate.lt_trans {a b c : NaiveDate} (h1 : a < b) (h2 : b < c) :
    a < c := by
  rw [NaiveDate.lt_iff] at *
  omega

theorem NaiveDate.lt_iff_monthIndex {a b : NaiveDate}
    (ha1 : 1 ≤ a.month) (ha2 : a.month ≤ 12) (hb1 : 1 ≤ b.month)
    (hb2 : b.month ≤ 12) :
    a < b ↔
      (monthIndex a < monthIndex b ∨
        (monthIndex a = monthIndex b ∧ a.day < b.day)) := by
  rw [NaiveDate.lt_iff]
  unfold monthIndex
  omega

theorem NaiveDate.eq_of_monthIndex {a b : NaiveDate}
    (ha1 : 1 ≤ a.month) (ha2 : a.month ≤ 12) (hb1 : 1 ≤ b.month)
    (hb2 : b.month ≤ 12) (hmi : monthIndex a = monthIndex b)
    (hd : a.day = b.day) : a = b := by
  unfold monthIndex at hmi
  cases a; cases b
  simp_all
  omega

/-! ### The day count and the calendar successor -/

theorem ordinalOf_bounds {y : Int} {m d : Nat} (hm1 : 1 ≤ m) (hm2 : m ≤ 12)
    (hd1 : 1 ≤ d) (hd2 : d ≤ daysInMonth y m) :
    1 ≤ ordinalOf y m d ∧
      ordinalOf y m d ≤ 365 + (if isLeapYear y then 1 else 0) := by
  unfold ordinalOf
  by_cases hL : isLeapYear y = true <;>
    interval_cases m <;>
    simp [cumDays, daysInMonth, hL] at * <;>
    omega


theorem yearPart_step (y : Int) :
    365 * ((y + 1) - 1) + ((y + 1) - 1) / 4 - ((y + 1) - 1) / 100
        + ((y + 1) - 1) / 400 =
      365 * (y - 1) + (y - 1) / 4 - (y - 1) / 100 + (y - 1) / 400
        + 365 + (if isLeapYear y then 1 else 0) := by
  by_cases hL : isLeapYear y = true
  · rw [if_pos hL]
    rw [isLeapYear_iff] at hL
    omega
  · rw [if_neg hL]
    have hn : ¬ (y % 4 = 0 ∧ (¬ y % 100 = 0 ∨ y % 400 = 0)) :=
      fun hp => hL ((isLeapYear_iff y).mpr hp)
    omega

theorem yearPart_mono {a b : Int} (h : a ≤ b) :
    365 * (a - 1) + (a - 1) / 4 - (a - 1) / 100 + (a - 1) / 400 ≤
      365 * (b - 1) + (b - 1) / 4 - (b - 1) / 100 + (b - 1) / 400 := by
  omega

theorem nextDate_spec {dt d2 : NaiveDate} (h : dt.valid = true)
    (hn : nextDate dt = some d2) :
    d2.valid = true ∧ numDaysFromCE d2 = numDaysFromCE dt + 1 ∧ dt < d2 := by
  obtain ⟨y, m, d⟩ := dt
  have h' : validYMD y m d = true := h
  obtain ⟨hy1, hy2, hm1, hm2, hd1, hd2⟩ := validYMD_iff.mp h'
  unfold nextDate at hn
  simp only [] at hn
  split at hn
  · -- same month, next day
    injection hn with hn
    subst hn
    refine ⟨?_, ?_, ?_⟩
    · show validYMD y m (d + 1) = true
      rw [validYMD_iff]
      exact ⟨hy1, hy2, hm1, hm2, by omega, by omega⟩
    · simp only [numDaysFromCE, ordinalOf]
      push_cast
      omega
    · exact Or.inr ⟨rfl, Or.inr ⟨rfl, by show d < d + 1; omega⟩⟩
  · split at hn
    · -- next month, day 1
      injection hn with hn
      subst hn
      have hdim : d = daysInMonth y m := by omega
      have hm12 : m < 12 := by assumption
      refine ⟨?_, ?_, ?_⟩
      · show validYMD y (m + 1) 1 = true
        rw [validYMD_iff]
        exact ⟨hy1, hy2, by omega, by omega, by omega,
          le_trans (by omega) (daysInMonth_ge y _)⟩
      · simp only [numDaysFromCE, ordinalOf]
        rw [hdim]
        by_cases hL : isLeapYear y = true <;>
          interval_cases m <;>
          simp [cumDays, daysInMonth, hL] <;>
          omega
      · exact Or.inr ⟨rfl, Or.inl (by show m < m + 1; omega)⟩
    · split at hn
      · -- next year, January 1
        injection hn with hn
        subst hn
        have hm12 : m = 12 := by omega
        have hymax : y < MAX_YEAR := by assumption
        have hdim : d = 31 := by
          have : daysInMonth y m = 31 := daysInMonth_eq_31 y (by omega)
          omega
        refine ⟨?_, ?_, ?_⟩
        · show validYMD (y + 1) 1 1 = true
          rw [validYMD_iff]
          refine ⟨by omega, by omega, by omega, by omega, by omega, ?_⟩
          have : daysInMonth (y + 1) 1 = 31 := daysInMonth_eq_31 _ (by omega)
          omega
        · simp only [numDaysFromCE, ordinalOf]
          rw [hm12, hdim]
          have hstep := yearPart_step y
          by_cases hL : isLeapYear y = true <;>
            simp [cumDays, hL] at hstep ⊢ <;>
            omega
        · exact Or.inl (by show y < y + 1; omega)
      · cases hn

theorem nextDate_eq_none {dt : NaiveDate} (h : dt.valid = true) :
    nextDate dt = none ↔ dt = maxDate := by
  obtain ⟨y, m, d⟩ := dt
  have h' : validYMD y m d = true := h
  obtain ⟨hy1, hy2, hm1, hm2, hd1, hd2⟩ := validYMD_iff.mp h'
  unfold nextDate maxDate
  simp only []
  constructor
  · intro hn
    split at hn
    · cases hn
    · split at hn
      · cases hn
      · split at hn
        · cases hn
        · have hm12 : m = 12 := by omega
          have hymax : y = MAX_YEAR := by omega
          have hdim : daysInMonth y m = 31 := daysInMonth_eq_31 y (by omega)
          have hd31 : d = 31 := by omega
          rw [hm12, hymax, hd31]
  · intro hEq
    injection hEq with h1 h2 h3
    subst h1; subst h2; subst h3
    have hdim : daysInMonth MAX_YEAR 12 = 31 := daysInMonth_eq_31 _ (by omega)
    rw [if_neg (by omega), if_neg (by omega), if_neg (by omega)]

theorem numDaysFromCE_le_max {dt : NaiveDate} (h : dt.valid = true) :
    numDaysFromCE dt ≤ numDaysFromCE maxDate := by
  obtain ⟨y, m, d⟩ := dt
  have h' : validYMD y m d = true := h
  obtain ⟨hy1, hy2, hm1, hm2, hd1, hd2⟩ := validYMD_iff.mp h'
  have hord := (ordinalOf_bounds hm1 hm2 hd1 hd2).2
  have hmaxord :
      ordinalOf MAX_YEAR 12 31 = 365 + (if isLeapYear MAX_YEAR then 1 else 0) := by
    unfold ordinalOf
    norm_num [cumDays]
    omega
  have h1 := yearPart_step y
  have h2 := yearPart_step MAX_YEAR
  have h3 := yearPart_mono (show y + 1 ≤ MAX_YEAR + 1 by omega)
  show 365 * (y - 1) + (y - 1) / 4 - (y - 1) / 100 + (y - 1) / 400
      + (ordinalOf y m d : Int) ≤
    365 * (MAX_YEAR - 1) + (MAX_YEAR - 1) / 4 - (MAX_YEAR - 1) / 100
      + (MAX_YEAR - 1) / 400 + (ordinalOf MAX_YEAR 12 31 : Int)
  rw [hmaxord]
  by_cases hL : isLeapYear y = true <;>
    by_cases hLM : isLeapYear MAX_YEAR = true <;>
    simp [hL, hLM] at * <;>
    omega

theorem checked_add_days_some {k : Nat} {dt R : NaiveDate} (h : dt.valid = true)
    (hR : checked_add_days dt k = some R) :
    R.valid = true ∧ numDaysFromCE R = numDaysFromCE dt + k ∧
      (dt = R ∨ dt < R) := by
  induction k generalizing dt with
  | zero =>
    injection hR with hR
    subst hR
    exact ⟨h, by omega, Or.inl rfl⟩
  | succ k ih =>
    unfold checked_add_days at hR
    cases hnd : nextDate dt with
    | none => rw [hnd] at hR; cases hR
    | some d2 =>
      rw [hnd] at hR
      simp only [Option.some_bind] at hR
      obtain ⟨hval2, hg2, hlt2⟩ := nextDate_spec h hnd
      obtain ⟨hvalR, hgR, hle⟩ := ih hval2 hR
      refine ⟨hvalR, by push_cast at hgR ⊢; omega, ?_⟩
      rcases hle with hEq | hlt
      · subst hEq; exact Or.inr hlt2
      · exact Or.inr (NaiveDate.lt_trans hlt2 hlt)

theorem checked_add_days_eq_none {k : Nat} {dt : NaiveDate}
    (h : dt.valid = true) :
    checked_add_days dt k = none ↔
      numDaysFromCE maxDate < numDaysFromCE dt + k := by
  induction k generalizing dt with
  | zero =>
    simp only [checked_add_days, reduceCtorEq, false_iff, not_lt]
    have := numDaysFromCE_le_max h
    omega
  | succ k ih =>
    unfold checked_add_days
    cases hnd : nextDate dt with
    | none =>
      have hEq := (nextDate_eq_none h).mp hnd
      subst hEq
      simp only [hnd, Option.none_bind, true_iff]
      omega
    | some d2 =>
      obtain ⟨hval2, hg2, _⟩ := nextDate_spec h hnd
      simp only [hnd, Option.some_bind]
      rw [ih hval2]
      omega

/-! ### Weekday arithmetic -/

theorem weekday_round :
    ∀ c : Nat, c < 7 → ∀ W : Weekday,
      Weekday.ofIdx ((c + ((W.days_since (Weekday.ofIdx c) + 6) % 7 + 1)) % 7)
        = W := by
  decide

theorem days_since_self (W : Weekday) : W.days_since W = 0 := by
  cases W <;> rfl

/-- C1: for every valid date `D` and weekday `W`, if `find_next_weekday D W`
returns a date `R`, then `R` is strictly after `D`, at most 7 days later
(in the day count), and `R`'s weekday is `W`. -/
theorem C1_find_next_weekday_sound (D : NaiveDate) (W : Weekday)
    (hD : D.valid = true) (R : NaiveDate)
    (hR : find_next_weekday D W = some R) :
    D < R ∧ numDaysFromCE R ≤ numDaysFromCE D + 7 ∧ R.weekday = W := by
  unfold find_next_weekday at hR
  obtain ⟨hvalR, hgR, hle⟩ := checked_add_days_some hD hR
  have hdelta : 1 ≤ days_distance D W ∧ days_distance D W ≤ 7 := by
    unfold days_distance
    omega
  refine ⟨?_, by omega, ?_⟩
  · rcases hle with hEq | hlt
    · exfalso
      rw [← hEq] at hgR
      omega
    · exact hlt
  · set c := ((numDaysFromCE D - 1) % 7).toNat with hc
    have hc7 : c < 7 := by omega
    have hwd : D.weekday = Weekday.ofIdx c := rfl
    have harith : ((numDaysFromCE R - 1) % 7).toNat
        = (c + days_distance D W) % 7 := by
      rw [hgR]
      omega
    show Weekday.ofIdx ((numDaysFromCE R - 1) % 7).toNat = W
    rw [harith]
    rw [show days_distance D W
        = (W.days_since (Weekday.ofIdx c) + 6) % 7 + 1 from by
      unfold days_distance
      rw [hwd]]
    exact weekday_round c hc7 W

/-- C2: if `D`'s weekday is already `W`, `find_next_weekday D W` is exactly
the 7-day jump `checked_add_days D 7`, and any returned date is 7 days
after `D` and in particular is not `D` itself. -/
theorem C2_find_next_weekday_same_weekday (D : NaiveDate) (W : Weekday)
    (hD : D.valid = true) (hW : D.weekday = W) :
    find_next_weekday D W = checked_add_days D 7 ∧
      ∀ R, find_next_weekday D W = some R →
        numDaysFromCE R = numDaysFromCE D + 7 ∧ R ≠ D := by
  have hdd : days_distance D W = 7 := by
    unfold days_distance
    rw [hW, days_since_self]
  constructor
  · unfold find_next_weekday
    rw [hdd]
  · intro R hR
    unfold find_next_weekday at hR
    obtain ⟨_, hgR, _⟩ := checked_add_days_some hD hR
    rw [hdd] at hgR
    refine ⟨by omega, ?_⟩
    intro hEq
    rw [hEq] at hgR
    omega

/-- C7: the computed day offset is between 1 and 7, and `find_next_weekday`
returns `none` exactly when moving that many days forward passes
`NaiveDate::MAX`; for every other valid input it returns a date. -/
theorem C7_find_next_weekday_none_iff_overflow (D : NaiveDate) (W : Weekday)
    (hD : D.valid = true) :
    (1 ≤ days_distance D W ∧ days_distance D W ≤ 7) ∧
      (find_next_weekday D W = none ↔
        numDaysFromCE maxDate < numDaysFromCE D + days_distance D W) := by
  refine ⟨by unfold days_distance; omega, ?_⟩
  unfold find_next_weekday
  exact checked_add_days_eq_none hD

theorem C1_witness :
    (⟨2023, 10, 15⟩ : NaiveDate).valid = true ∧
      find_next_weekday ⟨2023, 10, 15⟩ Weekday.mon = some ⟨2023, 10, 16⟩ ∧
      ((⟨2023, 10, 15⟩ : NaiveDate) < ⟨2023, 10, 16⟩ ∧
        numDaysFromCE ⟨2023, 10, 16⟩ ≤ numDaysFromCE ⟨2023, 10, 15⟩ + 7 ∧
        NaiveDate.weekday ⟨2023, 10, 16⟩ = Weekday.mon) :=
  ⟨by decide, by decide,
    C1_find_next_weekday_sound ⟨2023, 10, 15⟩ Weekday.mon (by decide)
      ⟨2023, 10, 16⟩ (by decide)⟩

theorem C2_witness :
    (⟨2023, 10, 16⟩ : NaiveDate).valid = true ∧
      NaiveDate.weekday ⟨2023, 10, 16⟩ = Weekday.mon ∧
      (find_next_weekday ⟨2023, 10, 16⟩ Weekday.mon
          = checked_add_days ⟨2023, 10, 16⟩ 7 ∧
        ∀ R, find_next_weekday ⟨2023, 10, 16⟩ Weekday.mon = some R →
          numDaysFromCE R = numDaysFromCE ⟨2023, 10, 16⟩ + 7 ∧
            R ≠ ⟨2023, 10, 16⟩) :=
  ⟨by decide, by decide,
    C2_find_next_weekday_same_weekday ⟨2023, 10, 16⟩ Weekday.mon (by decide)
      (by decide)⟩

theorem C7_witness :
    (⟨2023, 10, 15⟩ : NaiveDate).valid = true ∧
      ((1 ≤ days_distance ⟨2023, 10, 15⟩ Weekday.sun ∧
          days_distance ⟨2023, 10, 15⟩ Weekday.sun ≤ 7) ∧
        (find_next_weekday ⟨2023, 10, 15⟩ Weekday.sun = none ↔
          numDaysFromCE maxDate <
            numDaysFromCE ⟨2023, 10, 15⟩
              + days_distance ⟨2023, 10, 15⟩ Weekday.sun)) :=
  ⟨by decide,
    C7_find_next_weekday_none_iff_overflow ⟨2023, 10, 15⟩ Weekday.sun
      (by decide)⟩

/-! ### The bounded first-match scan -/

theorem scanFirst_eq_none_iff (step : Nat → Option NaiveDate) (i fuel : Nat) :
    scanFirst step i fuel = none ↔
      ∀ j, i ≤ j → j < i + fuel → step j = none := by
  induction fuel generalizing i with
  | zero =>
    simp only [scanFirst, true_iff]
    intro j h1 h2
    omega
  | succ fuel ih =>
    unfold scanFirst
    cases hs : step i with
    | some r =>
      simp only [reduceCtorEq, false_iff, not_forall]
      exact ⟨i, le_refl i, by omega, by rw [hs]; exact fun hc => by cases hc⟩
    | none =>
      rw [ih]
      constructor
      · intro hall j h1 h2
        rcases Nat.eq_or_lt_of_le h1 with hEq | hlt
        · rw [← hEq]; exact hs
        · exact hall j hlt (by omega)
      · intro hall j h1 h2
        exact hall j (by omega) (by omega)

theorem scanFirst_eq_some {step : Nat → Option NaiveDate} {i fuel : Nat}
    {R : NaiveDate} (h : scanFirst step i fuel = some R) :
    ∃ j, i ≤ j ∧ j < i + fuel ∧ step j = some R ∧
      ∀ k, i ≤ k → k < j → step k = none := by
  induction fuel generalizing i with
  | zero => cases h
  | succ fuel ih =>
    unfold scanFirst at h
    cases hs : step i with
    | some r =>
      rw [hs] at h
      injection h with h
      subst h
      exact ⟨i, le_refl i, by omega, hs, fun k h1 h2 => by omega⟩
    | none =>
      rw [hs] at h
      obtain ⟨j, h1, h2, h3, h4⟩ := ih h
      refine ⟨j, by omega, by omega, h3, ?_⟩
      intro k hk1 hk2
      rcases Nat.eq_or_lt_of_le hk1 with hEq | hlt
      · rw [← hEq]; exact hs
      · exact h4 k hlt hk2

theorem scanFirst_ne_none {step : Nat → Option NaiveDate} {i fuel j : Nat}
    (h1 : i ≤ j) (h2 : j < i + fuel) (h3 : step j ≠ none) :
    scanFirst step i fuel ≠ none := by
  intro hc
  exact h3 ((scanFirst_eq_none_iff step i fuel).mp hc j h1 h2)

/-! ### Month arithmetic -/

theorem checked_add_months_some {dt d2 : NaiveDate} {i : Nat}
    (hm1 : 1 ≤ dt.month) (h : checked_add_months dt i = some d2) :
    monthIndex d2 = monthIndex dt + i ∧ 1 ≤ d2.month ∧ d2.month ≤ 12 ∧
      MIN_YEAR ≤ d2.year ∧ d2.year ≤ MAX_YEAR ∧
      d2.day = min dt.day (daysInMonth d2.year d2.month) := by
  unfold checked_add_months at h
  simp only [] at h
  split at h
  · injection h with h
    subst h
    refine ⟨?_, ?_, ?_, ?_, ?_, rfl⟩
    · show 12 * (dt.year + (((dt.month - 1 + i) / 12 : Nat) : Int))
          + (((dt.month - 1 + i) % 12 + 1 : Nat) : Int) - 1
        = 12 * dt.year + (dt.month : Int) - 1 + i
      omega
    · show 1 ≤ (dt.month - 1 + i) % 12 + 1
      omega
    · show (dt.month - 1 + i) % 12 + 1 ≤ 12
      omega
    · show MIN_YEAR ≤ dt.year + (((dt.month - 1 + i) / 12 : Nat) : Int)
      omega
    · show dt.year + (((dt.month - 1 + i) / 12 : Nat) : Int) ≤ MAX_YEAR
      omega
  · cases h

theorem checked_add_months_hits {dt : NaiveDate} {i : Nat} (yE : Int)
    (mE : Nat) (hm1 : 1 ≤ dt.month) (hm2 : dt.month ≤ 12) (hmE1 : 1 ≤ mE)
    (hmE2 : mE ≤ 12) (hyE1 : MIN_YEAR ≤ yE) (hyE2 : yE ≤ MAX_YEAR)
    (hmi : 12 * yE + (mE : Int) - 1 = monthIndex dt + i) :
    checked_add_months dt i
      = some ⟨yE, mE, min dt.day (daysInMonth yE mE)⟩ := by
  have hy : dt.year + (((dt.month - 1 + i) / 12 : Nat) : Int) = yE := by
    unfold monthIndex at hmi
    omega
  have hm : (dt.month - 1 + i) % 12 + 1 = mE := by
    unfold monthIndex at hmi
    omega
  unfold checked_add_months
  simp only []
  rw [hy, hm]
  rw [if_pos ⟨hyE1, hyE2⟩]

theorem with_day_eq_some {dt R : NaiveDate} {n : Nat} :
    with_day dt n = some R ↔
      (validYMD dt.year dt.month n = true ∧ R = ⟨dt.year, dt.month, n⟩) :=
  from_ymd_opt_eq_some

theorem monthStep_some {dt : NaiveDate} {n i : Nat} {R : NaiveDate}
    (hm1 : 1 ≤ dt.month) (hR : monthStep dt n i = some R) :
    R.valid = true ∧ R.day = n ∧ monthIndex R = monthIndex dt + i := by
  unfold monthStep at hR
  cases hcam : checked_add_months dt i with
  | none => rw [hcam] at hR; cases hR
  | some d2 =>
    rw [hcam] at hR
    simp only [Option.some_bind] at hR
    obtain ⟨hmi, _, _, _, _, _⟩ := checked_add_months_some hm1 hcam
    obtain ⟨hval, hReq⟩ := with_day_eq_some.mp hR
    subst hReq
    refine ⟨hval, rfl, ?_⟩
    show 12 * d2.year + (d2.month : Int) - 1 = monthIndex dt + i
    rw [← hmi]
    rfl

theorem monthStep_hits {dt E : NaiveDate} {n i : Nat} (hm1 : 1 ≤ dt.month)
    (hm2 : dt.month ≤ 12) (hE : E.valid = true) (hEd : E.day = n)
    (hmi : monthIndex E = monthIndex dt + i) :
    monthStep dt n i = some E := by
  obtain ⟨hy1, hy2, hEm1, hEm2, hd1, hd2⟩ := NaiveDate.valid_iff.mp hE
  unfold monthStep
  rw [checked_add_months_hits E.year E.month hm1 hm2 hEm1 hEm2 hy1 hy2 hmi]
  simp only [Option.some_bind]
  rw [show with_day ⟨E.year, E.month, min dt.day (daysInMonth E.year E.month)⟩ n
      = from_ymd_opt E.year E.month n from rfl]
  unfold from_ymd_opt
  rw [if_pos]
  · cases E
    simp only [] at hEd ⊢
    rw [hEd]
  · rw [validYMD_iff]
    exact ⟨hy1, hy2, hEm1, hEm2, by omega, by omega⟩

/-! ### find_next_day_of_month: soundness and minimality -/

theorem fndom_scan_some {D : NaiveDate} {n : Nat} {R : NaiveDate}
    (hD : D.valid = true)
    (hfail : ¬ (D.day < n ∧ validYMD D.year D.month n = true))
    (h : scanFirst (monthStep D n) 1 12 = some R) :
    R.valid = true ∧ R.day = n ∧ D < R ∧ monthIndex R ≤ monthIndex D + 12 ∧
      ∀ E : NaiveDate, E.valid = true → E.day = n → D < E → R ≤ E := by
  obtain ⟨hDy1, hDy2, hDm1, hDm2, hDd1, hDd2⟩ := NaiveDate.valid_iff.mp hD
  obtain ⟨j, hj1, hj2, hstep, hfirst⟩ := scanFirst_eq_some h
  obtain ⟨hRval, hRday, hRmi⟩ := monthStep_some hDm1 hstep
  obtain ⟨hRy1, hRy2, hRm1, hRm2, hRd1, hRd2⟩ := NaiveDate.valid_iff.mp hRval
  refine ⟨hRval, hRday, ?_, by omega, ?_⟩
  · rw [NaiveDate.lt_iff_monthIndex hDm1 hDm2 hRm1 hRm2]
    left
    omega
  · intro E hEval hEd hDE
    obtain ⟨hEy1, hEy2, hEm1, hEm2, hEd1, hEd2⟩ := NaiveDate.valid_iff.mp hEval
    rw [NaiveDate.lt_iff_monthIndex hDm1 hDm2 hEm1 hEm2] at hDE
    have hmiDE : monthIndex D < monthIndex E := by
      rcases hDE with hlt | ⟨hEq, hday⟩
      · exact hlt
      · exfalso
        have hEy : E.year = D.year := by
          unfold monthIndex at hEq
          omega
        have hEm : E.month = D.month := by
          unfold monthIndex at hEq
          omega
        apply hfail
        constructor
        · omega
        · have hv : validYMD E.year E.month E.day = true := hEval
          rw [hEy, hEm, hEd] at hv
          exact hv
    by_cases hjk : monthIndex E - monthIndex D < j
    · exfalso
      obtain ⟨k, hkc, hk1, hk2⟩ :
          ∃ k : Nat, (k : Int) = monthIndex E - monthIndex D ∧ 1 ≤ k ∧ k < j :=
        ⟨(monthIndex E - monthIndex D).toNat, by omega, by omega, by omega⟩
      have hhit := monthStep_hits hDm1 hDm2 hEval hEd
        (show monthIndex E = monthIndex D + k by omega)
      rw [hfirst k hk1 hk2] at hhit
      cases hhit
    · rw [NaiveDate.le_iff]
      by_cases hmiRE : monthIndex R = monthIndex E
      · left
        exact NaiveDate.eq_of_monthIndex hRm1 hRm2 hEm1 hEm2 hmiRE
          (hRday.trans hEd.symm)
      · right
        rw [NaiveDate.lt_iff_monthIndex hRm1 hRm2 hEm1 hEm2]
        left
        omega

theorem fndom_some {D : NaiveDate} {n : Nat} {R : NaiveDate}
    (hD : D.valid = true) (h : find_next_day_of_month D n = some R) :
    R.valid = true ∧ R.day = n ∧ D < R ∧ monthIndex R ≤ monthIndex D + 12 ∧
      ∀ E : NaiveDate, E.valid = true → E.day = n → D < E → R ≤ E := by
  obtain ⟨hDy1, hDy2, hDm1, hDm2, hDd1, hDd2⟩ := NaiveDate.valid_iff.mp hD
  unfold find_next_day_of_month at h
  by_cases hdn : D.day < n
  · rw [if_pos hdn] at h
    cases hwd : with_day D n with
    | some date =>
      rw [hwd] at h
      injection h with h
      subst h
      obtain ⟨hval, hEq⟩ := with_day_eq_some.mp hwd
      subst hEq
      obtain ⟨_, _, _, _, hn1, hn2⟩ := validYMD_iff.mp hval
      refine ⟨hval, rfl, ?_, ?_, ?_⟩
      · exact Or.inr ⟨rfl, Or.inr ⟨rfl, hdn⟩⟩
      · show monthIndex D ≤ monthIndex D + 12
        omega
      · intro E hEval hEd hDE
        obtain ⟨hEy1, hEy2, hEm1, hEm2, hEd1, hEd2⟩ :=
          NaiveDate.valid_iff.mp hEval
        rw [NaiveDate.lt_iff_monthIndex hDm1 hDm2 hEm1 hEm2] at hDE
        rw [NaiveDate.le_iff]
        rcases hDE with hlt | ⟨hEq, hday⟩
        · refine Or.inr
            ((NaiveDate.lt_iff_monthIndex ?_ ?_ hEm1 hEm2).mpr (Or.inl ?_))
          · exact hDm1
          · exact hDm2
          · exact hlt
        · left
          have hmi : monthIndex (⟨D.year, D.month, n⟩ : NaiveDate)
              = monthIndex E := hEq
          exact NaiveDate.eq_of_monthIndex hDm1 hDm2 hEm1 hEm2 hmi hEd.symm
    | none =>
      rw [hwd] at h
      refine fndom_scan_some hD ?_ h
      intro ⟨_, hv⟩
      rw [show with_day D n = from_ymd_opt D.year D.month n from rfl,
        from_ymd_opt_eq_none] at hwd
      rw [hv] at hwd
      cases hwd
  · rw [if_neg hdn] at h
    exact fndom_scan_some hD (fun hc => hdn hc.1) h

theorem fndom_none_of_invalid {D : NaiveDate} {n : Nat}
    (hn : n < 1 ∨ 31 < n) : find_next_day_of_month D n = none := by
  have hwd : ∀ dt : NaiveDate, with_day dt n = none := by
    intro dt
    rw [show with_day dt n = from_ymd_opt dt.year dt.month n from rfl,
      from_ymd_opt_eq_none]
    rcases Bool.eq_false_or_eq_true (validYMD dt.year dt.month n) with hb | hb
    · exfalso
      obtain ⟨_, _, _, _, h1, h2⟩ := validYMD_iff.mp hb
      have := daysInMonth_le dt.year dt.month
      omega
    · exact hb
  have hstep : ∀ i, monthStep D n i = none := by
    intro i
    unfold monthStep
    cases hcam : checked_add_months D i with
    | none => rfl
    | some d2 =>
      simp only [Option.some_bind]
      exact hwd d2
  have hscan : scanFirst (monthStep D n) 1 12 = none :=
    (scanFirst_eq_none_iff _ 1 12).mpr (fun j _ _ => hstep j)
  unfold find_next_day_of_month
  by_cases hdn : D.day < n
  · rw [if_pos hdn, hwd D, hscan]
  · rw [if_neg hdn]
    exact hscan

theorem monthStep_isSome {D : NaiveDate} {n i : Nat} (hD : D.valid = true)
    (hn1 : 1 ≤ n)
    (hy2 : D.year + (((D.month - 1 + i) / 12 : Nat) : Int) ≤ MAX_YEAR)
    (hdim : n ≤ daysInMonth (D.year + (((D.month - 1 + i) / 12 : Nat) : Int))
        ((D.month - 1 + i) % 12 + 1)) :
    monthStep D n i ≠ none := by
  obtain ⟨hDy1, hDy2, hDm1, hDm2, hDd1, hDd2⟩ := NaiveDate.valid_iff.mp hD
  have hEval : (⟨D.year + (((D.month - 1 + i) / 12 : Nat) : Int),
      (D.month - 1 + i) % 12 + 1, n⟩ : NaiveDate).valid = true := by
    show validYMD (D.year + (((D.month - 1 + i) / 12 : Nat) : Int))
      ((D.month - 1 + i) % 12 + 1) n = true
    rw [validYMD_iff]
    exact ⟨by omega, hy2, by omega, by omega, hn1, hdim⟩
  have hmi : monthIndex (⟨D.year + (((D.month - 1 + i) / 12 : Nat) : Int),
      (D.month - 1 + i) % 12 + 1, n⟩ : NaiveDate) = monthIndex D + i := by
    show 12 * (D.year + (((D.month - 1 + i) / 12 : Nat) : Int))
        + (((D.month - 1 + i) % 12 + 1 : Nat) : Int) - 1
      = 12 * D.year + (D.month : Int) - 1 + i
    omega
  rw [monthStep_hits hDm1 hDm2 hEval rfl hmi]
  exact Option.some_ne_none _

theorem fndom_total {D : NaiveDate} {n : Nat} (hD : D.valid = true)
    (hy : D.year < MAX_YEAR) (hn1 : 1 ≤ n) (hn31 : n ≤ 31) :
    ∃ R, find_next_day_of_month D n = some R := by
  obtain ⟨hDy1, hDy2, hDm1, hDm2, hDd1, hDd2⟩ := NaiveDate.valid_iff.mp hD
  have hscan : ∃ i, 1 ≤ i ∧ i < 13 ∧ monthStep D n i ≠ none := by
    by_cases h28 : n ≤ 28
    · refine ⟨1, by omega, by omega, monthStep_isSome hD hn1 (by omega) ?_⟩
      exact le_trans h28 (daysInMonth_ge _ _)
    · by_cases h30 : n ≤ 30
      · by_cases hjan : D.month = 1
        · refine ⟨2, by omega, by omega, monthStep_isSome hD hn1 (by omega) ?_⟩
          rw [hjan]
          norm_num
          rw [daysInMonth_eq_31 _ (by norm_num)]
          omega
        · refine ⟨1, by omega, by omega, monthStep_isSome hD hn1 (by omega) ?_⟩
          refine le_trans h30 (daysInMonth_ge_30 _ ?_)
          omega
      · have h31 : n = 31 := by omega
        subst h31
        have pick : ∀ i : Nat, 1 ≤ i → i < 13 →
            ((D.month - 1 + i) % 12 + 1 = 1 ∨ (D.month - 1 + i) % 12 + 1 = 3 ∨
              (D.month - 1 + i) % 12 + 1 = 5 ∨ (D.month - 1 + i) % 12 + 1 = 7 ∨
              (D.month - 1 + i) % 12 + 1 = 8 ∨ (D.month - 1 + i) % 12 + 1 = 10 ∨
              (D.month - 1 + i) % 12 + 1 = 12) →
            ∃ i', 1 ≤ i' ∧ i' < 13 ∧ monthStep D 31 i' ≠ none := by
          intro i hi1 hi2 h31m
          refine ⟨i, hi1, hi2, monthStep_isSome hD (by omega) (by omega) ?_⟩
          rw [daysInMonth_eq_31 _ h31m]
        have hm := hDm1
        have hm' := hDm2
        interval_cases hmv : D.month
        · exact pick 2 (by omega) (by omega) (by omega)
        · exact pick 1 (by omega) (by omega) (by omega)
        · exact pick 2 (by omega) (by omega) (by omega)
        · exact pick 1 (by omega) (by omega) (by omega)
        · exact pick 2 (by omega) (by omega) (by omega)
        · exact pick 1 (by omega) (by omega) (by omega)
        · exact pick 1 (by omega) (by omega) (by omega)
        · exact pick 2 (by omega) (by omega) (by omega)
        · exact pick 1 (by omega) (by omega) (by omega)
        · exact pick 2 (by omega) (by omega) (by omega)
        · exact pick 1 (by omega) (by omega) (by omega)
        · exact pick 1 (by omega) (by omega) (by omega)
  obtain ⟨i, hi1, hi2, hstep⟩ := hscan
  have hscanSome : scanFirst (monthStep D n) 1 12 ≠ none :=
    scanFirst_ne_none hi1 (by omega) hstep
  unfold find_next_day_of_month
  by_cases hdn : D.day < n
  · rw [if_pos hdn]
    cases hwd : with_day D n with
    | some date => exact ⟨date, rfl⟩
    | none =>
      cases hsc : scanFirst (monthStep D n) 1 12 with
      | none => exact absurd hsc hscanSome
      | some R => exact ⟨R, rfl⟩
  · rw [if_neg hdn]
    cases hsc : scanFirst (monthStep D n) 1 12 with
    | none => exact absurd hsc hscanSome
    | some R => exact ⟨R, rfl⟩

/-- C3 counterexample: at `NaiveDate::MAX` = 262142-12-31 every month step
overflows the supported range, so `find_next_day_of_month` returns `none`
even for the valid target day 1, refuting the claim's unconditional success
for every date `D` and every `N` in `1 ..= 31`. -/
theorem C3_counterexample :
    (⟨262142, 12, 31⟩ : NaiveDate).valid = true ∧
      (1 : Nat) ≤ 1 ∧ (1 : Nat) ≤ 31 ∧
      find_next_day_of_month ⟨262142, 12, 31⟩ 1 = none := by
  refine ⟨by decide, by decide, by decide, by decide⟩

/-- C3 (amended): for every valid date `D` whose year is below `MAX_YEAR`
and every `N` with `1 ≤ N ≤ 31`, `find_next_day_of_month D N` returns a date
with day-of-month `N`, strictly after `D`, at most 12 months later (in
particular the returned month has at least `N` days); and for `N < 1` or
`N > 31` the result is empty. -/
theorem C3_find_next_day_of_month_range (D : NaiveDate) (n : Nat)
    (hD : D.valid = true) (hy : D.year < MAX_YEAR) :
    (1 ≤ n → n ≤ 31 →
      ∃ R, find_next_day_of_month D n = some R ∧ R.valid = true ∧
        R.day = n ∧ D < R ∧ monthIndex R ≤ monthIndex D + 12 ∧
        n ≤ daysInMonth R.year R.month) ∧
    (n < 1 ∨ 31 < n → find_next_day_of_month D n = none) := by
  constructor
  · intro h1 h31
    obtain ⟨R, hR⟩ := fndom_total hD hy h1 h31
    obtain ⟨hval, hday, hlt, hwin, _⟩ := fndom_some hD hR
    obtain ⟨_, _, _, _, _, hd2⟩ := NaiveDate.valid_iff.mp hval
    exact ⟨R, hR, hval, hday, hlt, hwin, by omega⟩
  · exact fndom_none_of_invalid

theorem C3_witness :
    (⟨2023, 1, 31⟩ : NaiveDate).valid = true ∧
      (⟨2023, 1, 31⟩ : NaiveDate).year < MAX_YEAR ∧
      ((1 ≤ 31 → 31 ≤ 31 →
        ∃ R, find_next_day_of_month ⟨2023, 1, 31⟩ 31 = some R ∧
          R.valid = true ∧ R.day = 31 ∧ (⟨2023, 1, 31⟩ : NaiveDate) < R ∧
          monthIndex R ≤ monthIndex ⟨2023, 1, 31⟩ + 12 ∧
          31 ≤ daysInMonth R.year R.month) ∧
      ((31 : Nat) < 1 ∨ 31 < (31 : Nat) →
        find_next_day_of_month ⟨2023, 1, 31⟩ 31 = none)) :=
  ⟨by decide, by decide,
    C3_find_next_day_of_month_range ⟨2023, 1, 31⟩ 31 (by decide) (by decide)⟩

/-- C5: `find_next_day_of_month D N` returns the date of day `N` in `D`'s own
month exactly when `N` is strictly greater than `D`'s day and `D`'s month is
long enough; in every other case any returned date lies in a strictly later
month (it comes from the forward month scan). -/
theorem C5_in_month_iff (D : NaiveDate) (n : Nat) (hD : D.valid = true) :
    (D.day < n ∧ n ≤ daysInMonth D.year D.month →
      find_next_day_of_month D n = some ⟨D.year, D.month, n⟩) ∧
    (¬ (D.day < n ∧ n ≤ daysInMonth D.year D.month) →
      ∀ R, find_next_day_of_month D n = some R →
        monthIndex D < monthIndex R) := by
  obtain ⟨hDy1, hDy2, hDm1, hDm2, hDd1, hDd2⟩ := NaiveDate.valid_iff.mp hD
  constructor
  · intro ⟨hdn, hdim⟩
    unfold find_next_day_of_month
    rw [if_pos hdn]
    have hwd : with_day D n = some ⟨D.year, D.month, n⟩ := by
      rw [with_day_eq_some]
      exact ⟨validYMD_iff.mpr ⟨hDy1, hDy2, hDm1, hDm2, by omega, hdim⟩, rfl⟩
    rw [hwd]
  · intro hfail R hR
    unfold find_next_day_of_month at hR
    by_cases hdn : D.day < n
    · rw [if_pos hdn] at hR
      cases hwd : with_day D n with
      | some date =>
        exfalso
        obtain ⟨hval, _⟩ := with_day_eq_some.mp hwd
        obtain ⟨_, _, _, _, _, hvd⟩ := validYMD_iff.mp hval
        exact hfail ⟨hdn, hvd⟩
      | none =>
        rw [hwd] at hR
        obtain ⟨j, hj1, hj2, hstep, _⟩ := scanFirst_eq_some hR
        obtain ⟨_, _, hmi⟩ := monthStep_some hDm1 hstep
        omega
    · rw [if_neg hdn] at hR
      obtain ⟨j, hj1, hj2, hstep, _⟩ := scanFirst_eq_some hR
      obtain ⟨_, _, hmi⟩ := monthStep_some hDm1 hstep
      omega

theorem C5_witness :
    (⟨2023, 10, 15⟩ : NaiveDate).valid = true ∧
      (((⟨2023, 10, 15⟩ : NaiveDate).day < 20 ∧
          20 ≤ daysInMonth 2023 10 →
        find_next_day_of_month ⟨2023, 10, 15⟩ 20 = some ⟨2023, 10, 20⟩) ∧
      (¬ ((⟨2023, 10, 15⟩ : NaiveDate).day < 20 ∧ 20 ≤ daysInMonth 2023 10) →
        ∀ R, find_next_day_of_month ⟨2023, 10, 15⟩ 20 = some R →
          monthIndex ⟨2023, 10, 15⟩ < monthIndex R)) :=
  ⟨by decide, C5_in_month_iff ⟨2023, 10, 15⟩ 20 (by decide)⟩

/-- C9: for every valid date `D` and target day `N`, whenever
`find_next_day_of_month D N` returns a date `R`, `R` is the earliest valid
date strictly after `D` whose day-of-month equals `N`: the day clamp in the
month stepping never skips a nearer matching month. -/
theorem C9_fndom_minimal (D : NaiveDate) (n : Nat) (hD : D.valid = true)
    (R : NaiveDate) (hR : find_next_day_of_month D n = some R) :
    R.valid = true ∧ R.day = n ∧ D < R ∧
      ∀ E : NaiveDate, E.valid = true → E.day = n → D < E → R ≤ E := by
  obtain ⟨hval, hday, hlt, _, hmin⟩ := fndom_some hD hR
  exact ⟨hval, hday, hlt, hmin⟩

theorem C9_witness :
    (⟨2023, 1, 31⟩ : NaiveDate).valid = true ∧
      find_next_day_of_month ⟨2023, 1, 31⟩ 31 = some ⟨2023, 3, 31⟩ ∧
      ((⟨2023, 3, 31⟩ : NaiveDate).valid = true ∧
        (⟨2023, 3, 31⟩ : NaiveDate).day = 31 ∧
        (⟨2023, 1, 31⟩ : NaiveDate) < ⟨2023, 3, 31⟩ ∧
        ∀ E : NaiveDate, E.valid = true → E.day = 31 →
          (⟨2023, 1, 31⟩ : NaiveDate) < E → (⟨2023, 3, 31⟩ : NaiveDate) ≤ E) :=
  ⟨by decide, by decide,
    C9_fndom_minimal ⟨2023, 1, 31⟩ 31 (by decide) ⟨2023, 3, 31⟩ (by decide)⟩

/-! ### find_next_annual_date: scan analysis -/

theorem fnad_eq_scan {D : NaiveDate} {m d : Nat}
    (hfail : ∀ c, from_ymd_opt D.year m d = some c → ¬ D < c) :
    find_next_annual_date D m d = scanFirst (yearStep D.year m d) 1 8 := by
  unfold find_next_annual_date
  simp only []
  cases hc : from_ymd_opt D.year m d with
  | none => rfl
  | some c =>
    show (if D < c then some c else scanFirst (yearStep D.year m d) 1 8)
      = scanFirst (yearStep D.year m d) 1 8
    rw [if_neg (hfail c hc)]

theorem fnad_scan_some {D : NaiveDate} {m d : Nat} {R : NaiveDate}
    (hfail : ∀ c, from_ymd_opt D.year m d = some c → ¬ D < c)
    (h : scanFirst (yearStep D.year m d) 1 8 = some R) :
    R.valid = true ∧ R.month = m ∧ R.day = d ∧ D < R ∧
      D.year < R.year ∧ R.year ≤ D.year + 8 ∧
      (∀ y : Int, D.year < y → y < R.year → validYMD y m d = false) ∧
      (∀ E : NaiveDate, E.valid = true → E.month = m → E.day = d → D < E →
        R ≤ E) := by
  obtain ⟨j, hj1, hj2, hstep, hfirst⟩ := scanFirst_eq_some h
  have hstep' : from_ymd_opt (D.year + (j : Int)) m d = some R := hstep
  obtain ⟨hval, hReq⟩ := from_ymd_opt_eq_some.mp hstep'
  subst hReq
  have hfirst' : ∀ k : Nat, 1 ≤ k → k < j →
      from_ymd_opt (D.year + (k : Int)) m d = none := by
    intro k h1 h2
    exact hfirst k h1 h2
  refine ⟨hval, rfl, rfl, ?_, ?_, ?_, ?_, ?_⟩
  · exact Or.inl (by show D.year < D.year + (j : Int); omega)
  · show D.year < D.year + (j : Int)
    omega
  · show D.year + (j : Int) ≤ D.year + 8
    omega
  · intro y hy1 hy2
    have hyR : y < D.year + (j : Int) := hy2
    obtain ⟨k, hkc, hk1, hk2⟩ :
        ∃ k : Nat, (k : Int) = y - D.year ∧ 1 ≤ k ∧ k < j :=
      ⟨(y - D.year).toNat, by omega, by omega, by omega⟩
    have hnone := hfirst' k hk1 hk2
    rw [show D.year + (k : Int) = y from by omega] at hnone
    exact from_ymd_opt_eq_none.mp hnone
  · intro E hEval hEm hEd hDE
    have hEeq : E = ⟨E.year, m, d⟩ := by
      obtain ⟨yE, mE, dE⟩ := E
      simp only [] at hEm hEd ⊢
      rw [hEm, hEd]
    have hEv' : validYMD E.year m d = true := by
      rw [hEeq] at hEval
      exact hEval
    rcases lt_trichotomy E.year D.year with hty | hty | hty
    · exfalso
      rcases hDE with hlt | ⟨hEq, _⟩ <;> omega
    · exfalso
      have hDE' : D < ⟨D.year, m, d⟩ := by
        rw [hEeq, hty] at hDE
        exact hDE
      have hfy : from_ymd_opt D.year m d = some ⟨D.year, m, d⟩ := by
        rw [from_ymd_opt_eq_some]
        refine ⟨?_, rfl⟩
        rw [← hty]
        exact hEv'
      exact hfail _ hfy hDE'
    · by_cases hkj : E.year < D.year + (j : Int)
      · exfalso
        obtain ⟨k, hkc, hk1, hk2⟩ :
            ∃ k : Nat, (k : Int) = E.year - D.year ∧ 1 ≤ k ∧ k < j :=
          ⟨(E.year - D.year).toNat, by omega, by omega, by omega⟩
        have hnone := hfirst' k hk1 hk2
        rw [show D.year + (k : Int) = E.year from by omega] at hnone
        rw [from_ymd_opt_eq_none, hEv'] at hnone
        cases hnone
      · rw [NaiveDate.le_iff]
        rcases eq_or_lt_of_le (not_lt.mp hkj) with hEq | hlt
        · left
          rw [hEeq, ← hEq]
        · right
          exact Or.inl (by show D.year + (j : Int) < E.year; omega)

theorem fnad_some {D : NaiveDate} {m d : Nat} {R : NaiveDate}
    (h : find_next_annual_date D m d = some R) :
    R.valid = true ∧ R.month = m ∧ R.day = d ∧ D < R ∧ R.year ≤ D.year + 8 ∧
      ∀ E : NaiveDate, E.valid = true → E.month = m → E.day = d → D < E →
        R ≤ E := by
  unfold find_next_annual_date at h
  simp only [] at h
  cases hc : from_ymd_opt D.year m d with
  | some c =>
    rw [hc] at h
    replace h : (if D < c then some c
        else scanFirst (yearStep D.year m d) 1 8) = some R := h
    by_cases hlt : D < c
    · rw [if_pos hlt] at h
      injection h with h
      subst h
      obtain ⟨hval, hceq⟩ := from_ymd_opt_eq_some.mp hc
      subst hceq
      refine ⟨hval, rfl, rfl, hlt, ?_, ?_⟩
      · show D.year ≤ D.year + 8
        omega
      · intro E hEval hEm hEd hDE
        have hEeq : E = ⟨E.year, m, d⟩ := by
          obtain ⟨yE, mE, dE⟩ := E
          simp only [] at hEm hEd ⊢
          rw [hEm, hEd]
        rw [NaiveDate.le_iff]
        rcases lt_trichotomy E.year D.year with hty | hty | hty
        · exfalso
          rcases hDE with hl | ⟨hEq, _⟩ <;> omega
        · left
          rw [hEeq, hty]
        · right
          exact Or.inl (by show D.year < E.year; omega)
    · rw [if_neg hlt] at h
      have hfail : ∀ c', from_ymd_opt D.year m d = some c' → ¬ D < c' := by
        intro c' hc'
        rw [hc] at hc'
        injection hc' with hc'
        subst hc'
        exact hlt
      obtain ⟨hval, hm, hd, hDR, hy1, hy2, _, hmin⟩ := fnad_scan_some hfail h
      exact ⟨hval, hm, hd, hDR, hy2, hmin⟩
  | none =>
    rw [hc] at h
    replace h : scanFirst (yearStep D.year m d) 1 8 = some R := h
    have hfail : ∀ c', from_ymd_opt D.year m d = some c' → ¬ D < c' := by
      intro c' hc'
      rw [hc] at hc'
      cases hc'
    obtain ⟨hval, hm, hd, hDR, hy1, hy2, _, hmin⟩ := fnad_scan_some hfail h
    exact ⟨hval, hm, hd, hDR, hy2, hmin⟩

theorem leap_in_window (y : Int) :
    ∃ i : Nat, 1 ≤ i ∧ i ≤ 8 ∧ isLeapYear (y + i) = true := by
  obtain ⟨i1, hi1a, hi1b, hi1mod⟩ :
      ∃ i1 : Nat, 1 ≤ i1 ∧ i1 ≤ 4 ∧ (y + i1) % 4 = 0 :=
    ⟨(4 - y % 4).toNat, by omega, by omega, by omega⟩
  by_cases h100 : (y + i1) % 100 = 0
  · by_cases h400 : (y + i1) % 400 = 0
    · exact ⟨i1, hi1a, by omega, (isLeapYear_iff _).mpr ⟨hi1mod, Or.inr h400⟩⟩
    · refine ⟨i1 + 4, by omega, by omega, (isLeapYear_iff _).mpr ⟨?_, Or.inl ?_⟩⟩
      · push_cast
        omega
      · push_cast
        omega
  · exact ⟨i1, hi1a, by omega, (isLeapYear_iff _).mpr ⟨hi1mod, Or.inl h100⟩⟩

theorem yearStep_ne_none {Y : Int} {m d i : Nat}
    (hv : validYMD (Y + (i : Int)) m d = true) : yearStep Y m d i ≠ none := by
  intro hc
  have hc' : from_ymd_opt (Y + (i : Int)) m d = none := hc
  rw [from_ymd_opt_eq_none, hv] at hc'
  cases hc'

theorem fnad_exists {D E : NaiveDate} {m d : Nat} (hD : D.valid = true)
    (hE : E.valid = true) (hEm : E.month = m) (hEd : E.day = d)
    (hDE : D < E) :
    ∃ R, find_next_annual_date D m d = some R := by
  have hEeq : E = ⟨E.year, m, d⟩ := by
    obtain ⟨yE, mE, dE⟩ := E
    simp only [] at hEm hEd ⊢
    rw [hEm, hEd]
  have hEv' : validYMD E.year m d = true := by
    rw [hEeq] at hE
    exact hE
  obtain ⟨hEy1, hEy2, hm1, hm2, hd1, hd2⟩ := validYMD_iff.mp hEv'
  obtain ⟨hDy1, hDy2, hDm1, hDm2, hDd1, hDd2⟩ := NaiveDate.valid_iff.mp hD
  have hyDE : D.year ≤ E.year := by
    rcases hDE with hl | ⟨hEq, _⟩ <;> omega
  have hscan : (∀ c, from_ymd_opt D.year m d = some c → ¬ D < c) →
      ∃ R, scanFirst (yearStep D.year m d) 1 8 = some R := by
    intro hfail
    have hyne : D.year ≠ E.year := by
      intro hEq2
      apply hfail ⟨D.year, m, d⟩
      · rw [from_ymd_opt_eq_some]
        exact ⟨by rw [hEq2]; exact hEv', rfl⟩
      · rw [hEeq, ← hEq2] at hDE
        exact hDE
    have hstepEx : ∃ i : Nat, 1 ≤ i ∧ i < 9 ∧ yearStep D.year m d i ≠ none := by
      by_cases hgap : E.year ≤ D.year + 8
      · obtain ⟨k, hkc, hk1, hk2⟩ :
            ∃ k : Nat, (k : Int) = E.year - D.year ∧ 1 ≤ k ∧ k < 9 :=
          ⟨(E.year - D.year).toNat, by omega, by omega, by omega⟩
        refine ⟨k, hk1, hk2, yearStep_ne_none ?_⟩
        rw [show D.year + (k : Int) = E.year from by omega]
        exact hEv'
      · by_cases hfeb : m = 2 ∧ d = 29
        · obtain ⟨i, hi1, hi2, hileap⟩ := leap_in_window D.year
          refine ⟨i, hi1, by omega, yearStep_ne_none ?_⟩
          obtain ⟨hf2, hf29⟩ := hfeb
          subst hf2
          subst hf29
          rw [validYMD_iff]
          refine ⟨by omega, by omega, by omega, by omega, by omega, ?_⟩
          rw [daysInMonth_feb, if_pos hileap]
        · refine ⟨1, by omega, by omega, yearStep_ne_none ?_⟩
          rw [validYMD_iff]
          refine ⟨by omega, by omega, hm1, hm2, hd1, ?_⟩
          by_cases hm2' : m = 2
          · have hd29 : d ≤ 29 := by
              rw [hm2', daysInMonth_feb] at hd2
              by_cases hL : isLeapYear E.year = true
              · rw [if_pos hL] at hd2
                omega
              · rw [if_neg hL] at hd2
                omega
            have hd28 : d ≤ 28 := by
              rcases Nat.lt_or_ge d 29 with hx | hx
              · omega
              · exact absurd ⟨hm2', by omega⟩ hfeb
            exact le_trans hd28 (daysInMonth_ge _ _)
          · calc d ≤ daysInMonth E.year m := hd2
              _ = daysInMonth (D.year + ((1 : Nat) : Int)) m :=
                daysInMonth_year_indep hm2'
    obtain ⟨i, hi1, hi2, histep⟩ := hstepEx
    cases hsc : scanFirst (yearStep D.year m d) 1 8 with
    | none => exact absurd hsc (scanFirst_ne_none hi1 (by omega) histep)
    | some R => exact ⟨R, rfl⟩
  cases hc : from_ymd_opt D.year m d with
  | some c =>
    by_cases hlt : D < c
    · refine ⟨c, ?_⟩
      unfold find_next_annual_date
      simp only []
      rw [hc]
      show (if D < c then some c else scanFirst (yearStep D.year m d) 1 8)
        = some c
      rw [if_pos hlt]
    · have hfail : ∀ c', from_ymd_opt D.year m d = some c' → ¬ D < c' := by
        intro c' hc'
        rw [hc] at hc'
        injection hc' with hc'
        subst hc'
        exact hlt
      obtain ⟨R, hR⟩ := hscan hfail
      refine ⟨R, ?_⟩
      rw [fnad_eq_scan hfail]
      exact hR
  | none =>
    have hfail : ∀ c', from_ymd_opt D.year m d = some c' → ¬ D < c' := by
      intro c' hc'
      rw [hc] at hc'
      cases hc'
    obtain ⟨R, hR⟩ := hscan hfail
    refine ⟨R, ?_⟩
    rw [fnad_eq_scan hfail]
    exact hR

/-- C4: for every valid date `D` and target `(month, day)`, any date returned
by `find_next_annual_date` matches the target, is strictly after `D`, and is
the minimal such valid date; a date is returned whenever any matching valid
date after `D` exists; and for target Feb 29 the returned year is always a
leap year. -/
theorem C4_fnad_minimal (D : NaiveDate) (m d : Nat) (hD : D.valid = true) :
    (∀ R, find_next_annual_date D m d = some R →
      R.valid = true ∧ R.month = m ∧ R.day = d ∧ D < R ∧
        (∀ E : NaiveDate, E.valid = true → E.month = m → E.day = d → D < E →
          R ≤ E) ∧
        (m = 2 → d = 29 → isLeapYear R.year = true)) ∧
    (∀ E : NaiveDate, E.valid = true → E.month = m → E.day = d → D < E →
      ∃ R, find_next_annual_date D m d = some R) := by
  constructor
  · intro R hR
    obtain ⟨hval, hm, hd, hDR, _, hmin⟩ := fnad_some hR
    refine ⟨hval, hm, hd, hDR, hmin, ?_⟩
    intro h2 h29
    apply isLeapYear_of_feb29
    obtain ⟨_, _, _, _, _, hdd⟩ := NaiveDate.valid_iff.mp hval
    rw [hm, h2] at hdd
    omega
  · intro E h1 h2 h3 h4
    exact fnad_exists hD h1 h2 h3 h4

theorem C4_witness :
    (⟨2024, 3, 20⟩ : NaiveDate).valid = true ∧
      ((∀ R, find_next_annual_date ⟨2024, 3, 20⟩ 2 29 = some R →
        R.valid = true ∧ R.month = 2 ∧ R.day = 29 ∧
          (⟨2024, 3, 20⟩ : NaiveDate) < R ∧
          (∀ E : NaiveDate, E.valid = true → E.month = 2 → E.day = 29 →
            (⟨2024, 3, 20⟩ : NaiveDate) < E → R ≤ E) ∧
          (2 = 2 → 29 = 29 → isLeapYear R.year = true)) ∧
      (∀ E : NaiveDate, E.valid = true → E.month = 2 → E.day = 29 →
        (⟨2024, 3, 20⟩ : NaiveDate) < E →
        ∃ R, find_next_annual_date ⟨2024, 3, 20⟩ 2 29 = some R)) :=
  ⟨by decide, C4_fnad_minimal ⟨2024, 3, 20⟩ 2 29 (by decide)⟩

/-- C8: for every valid date `D`, if no valid date matching the target
`(month, day)` and strictly after `D` exists with year at most `D.year + 8`
(in particular when the pair never forms a valid date at all, such as
month 13 or Feb 30), then `find_next_annual_date` returns `none`. -/
theorem C8_fnad_none (D : NaiveDate) (m d : Nat) (hD : D.valid = true)
    (h : ∀ E : NaiveDate, E.valid = true → E.month = m → E.day = d → D < E →
      ¬ E.year ≤ D.year + 8) :
    find_next_annual_date D m d = none := by
  cases hres : find_next_annual_date D m d with
  | none => rfl
  | some R =>
    exfalso
    obtain ⟨hval, hm, hd, hDR, hy8, _⟩ := fnad_some hres
    exact h R hval hm hd hDR hy8

theorem C8_witness :
    (⟨2023, 5, 15⟩ : NaiveDate).valid = true ∧
      find_next_annual_date ⟨2023, 5, 15⟩ 13 1 = none :=
  ⟨by decide, C8_fnad_none ⟨2023, 5, 15⟩ 13 1 (by decide)
    (by
      intro E hv hm13 _ _
      obtain ⟨_, _, _, hm12, _, _⟩ := NaiveDate.valid_iff.mp hv
      omega)⟩

/-- C6 counterexample: from 2096-03-01, a leap year past Feb 29, the
returned date is 2104-02-29: the next leap year is 8 years ahead, not at
most 4 as claimed. -/
theorem C6_counterexample :
    find_next_annual_date ⟨2096, 3, 1⟩ 2 29 = some ⟨2104, 2, 29⟩ ∧
      ¬ ((2104 : Int) ≤ 2096 + 4) := ⟨by decide, by decide⟩

/-- C6 (amended): for every valid date `D` with year at most `MAX_YEAR - 8`
that is in a non-leap year, or on or past Feb 29 in a leap year, the year
scan of `find_next_annual_date D 2 29` returns Feb 29 of the first leap year
strictly after `D`'s year, at most 8 years ahead. -/
theorem C6_feb29_scan (D : NaiveDate) (hD : D.valid = true)
    (hy : D.year ≤ MAX_YEAR - 8)
    (hcase : isLeapYear D.year = false ∨ 2 < D.month ∨
      (D.month = 2 ∧ D.day = 29)) :
    ∃ R, find_next_annual_date D 2 29 = some R ∧ R.month = 2 ∧ R.day = 29 ∧
      isLeapYear R.year = true ∧ D.year < R.year ∧ R.year ≤ D.year + 8 ∧
      ∀ y : Int, D.year < y → y < R.year → isLeapYear y = false := by
  obtain ⟨hDy1, hDy2, hDm1, hDm2, hDd1, hDd2⟩ := NaiveDate.valid_iff.mp hD
  have hfail : ∀ c, from_ymd_opt D.year 2 29 = some c → ¬ D < c := by
    intro c hc hlt
    obtain ⟨hcv, hceq⟩ := from_ymd_opt_eq_some.mp hc
    subst hceq
    obtain ⟨_, _, _, _, _, hc29⟩ := validYMD_iff.mp hcv
    have hleap : isLeapYear D.year = true := isLeapYear_of_feb29 hc29
    rcases hcase with hnl | hrest
    · rw [hleap] at hnl
      cases hnl
    · have hlt' : D.year < D.year ∨ (D.year = D.year ∧
          (D.month < 2 ∨ (D.month = 2 ∧ D.day < 29))) := hlt
      omega
  obtain ⟨i, hi1, hi2, hileap⟩ := leap_in_window D.year
  have histep : yearStep D.year 2 29 i ≠ none := by
    apply yearStep_ne_none
    rw [validYMD_iff]
    refine ⟨by omega, by omega, by omega, by omega, by omega, ?_⟩
    rw [daysInMonth_feb, if_pos hileap]
  cases hsc : scanFirst (yearStep D.year 2 29) 1 8 with
  | none => exact absurd hsc (scanFirst_ne_none hi1 (by omega) histep)
  | some R =>
    obtain ⟨hval, hm, hd, hDR, hy1, hy2, hgap, _⟩ := fnad_scan_some hfail hsc
    refine ⟨R, ?_, hm, hd, ?_, hy1, hy2, ?_⟩
    · rw [fnad_eq_scan hfail]
      exact hsc
    · apply isLeapYear_of_feb29
      obtain ⟨_, _, _, _, _, hdd⟩ := NaiveDate.valid_iff.mp hval
      rw [hm] at hdd
      omega
    · intro y hgt hltR
      have hvf := hgap y hgt hltR
      rcases Bool.eq_false_or_eq_true (isLeapYear y) with hb | hb
      · exfalso
        have hvy : validYMD y 2 29 = true := by
          rw [validYMD_iff]
          refine ⟨by omega, by omega, by omega, by omega, by omega, ?_⟩
          rw [daysInMonth_feb, if_pos hb]
        rw [hvy] at hvf
        cases hvf
      · exact hb

theorem C6_witness :
    (⟨2025, 2, 20⟩ : NaiveDate).valid = true ∧
      (⟨2025, 2, 20⟩ : NaiveDate).year ≤ MAX_YEAR - 8 ∧
      isLeapYear 2025 = false ∧
      (∃ R, find_next_annual_date ⟨2025, 2, 20⟩ 2 29 = some R ∧
        R.month = 2 ∧ R.day = 29 ∧ isLeapYear R.year = true ∧
        (⟨2025, 2, 20⟩ : NaiveDate).year < R.year ∧
        R.year ≤ (⟨2025, 2, 20⟩ : NaiveDate).year + 8 ∧
        ∀ y : Int, (⟨2025, 2, 20⟩ : NaiveDate).year < y → y < R.year →
          isLeapYear y = false) :=
  ⟨by decide, by decide, by decide,
    C6_feb29_scan ⟨2025, 2, 20⟩ (by decide) (by decide) (Or.inl (by decide))⟩

/-- C10 counterexample: at 262142-01-01, the last supported year (a non-leap
year), all eight scanned years lie beyond `NaiveDate::MAX`, so
`find_next_annual_date(D, 2, 29)` returns `none`, refuting the claim that it
never returns an empty result. -/
theorem C10_counterexample :
    (⟨262142, 1, 1⟩ : NaiveDate).valid = true ∧
      find_next_annual_date ⟨262142, 1, 1⟩ 2 29 = none :=
  ⟨by decide, by decide⟩

/-- C10 (amended): for every valid date `D` whose year is at most
`MAX_YEAR - 8`, `find_next_annual_date D 2 29` never returns an empty
result: 8 consecutive years always contain a leap year, and the whole scan
window stays inside the supported range. -/
theorem C10_feb29_total (D : NaiveDate) (hD : D.valid = true)
    (hy : D.year ≤ MAX_YEAR - 8) :
    ∃ R, find_next_annual_date D 2 29 = some R := by
  obtain ⟨hDy1, hDy2, hDm1, hDm2, hDd1, hDd2⟩ := NaiveDate.valid_iff.mp hD
  have hscan : (∀ c, from_ymd_opt D.year 2 29 = some c → ¬ D < c) →
      ∃ R, find_next_annual_date D 2 29 = some R := by
    intro hfail
    obtain ⟨i, hi1, hi2, hileap⟩ := leap_in_window D.year
    have histep : yearStep D.year 2 29 i ≠ none := by
      apply yearStep_ne_none
      rw [validYMD_iff]
      refine ⟨by omega, by omega, by omega, by omega, by omega, ?_⟩
      rw [daysInMonth_feb, if_pos hileap]
    cases hsc : scanFirst (yearStep D.year 2 29) 1 8 with
    | none => exact absurd hsc (scanFirst_ne_none hi1 (by omega) histep)
    | some R =>
      refine ⟨R, ?_⟩
      rw [fnad_eq_scan hfail]
      exact hsc
  cases hc : from_ymd_opt D.year 2 29 with
  | some c =>
    by_cases hlt : D < c
    · refine ⟨c, ?_⟩
      unfold find_next_annual_date
      simp only []
      rw [hc]
      show (if D < c then some c else scanFirst (yearStep D.year 2 29) 1 8)
        = some c
      rw [if_pos hlt]
    · apply hscan
      intro c' hc'
      rw [hc] at hc'
      injection hc' with hc'
      subst hc'
      exact hlt
  | none =>
    apply hscan
    intro c' hc'
    rw [hc] at hc'
    cases hc'

theorem C10_witness :
    (⟨2024, 3, 20⟩ : NaiveDate).valid = true ∧
      (⟨2024, 3, 20⟩ : NaiveDate).year ≤ MAX_YEAR - 8 ∧
      ∃ R, find_next_annual_date ⟨2024, 3, 20⟩ 2 29 = some R :=
  ⟨by decide, by decide, C10_feb29_total ⟨2024, 3, 20⟩ (by decide) (by decide)⟩
